import Mathlib

/-!
Shallow embedding of `src/message.rs` (actix-lua): the `LuaMessage` value
type, its host-side constructors (`From` impls), the bidirectional codec
with the Lua runtime (`FromLua` / `ToLua`), and the actix `MessageResponse`
binding.

Modelling conventions:
- Rust `i64` is modelled as `Int` (with explicit twos-complement wrapping
  where the source performs an `as` cast).
- Rust `f64` is inert in this code (values pass through unchanged), so it is
  modelled by its 64-bit pattern as a `Nat` carrier, `F64`; where the derived
  `PartialEq` compares floats, the IEEE `==` on bit patterns is `f64Eq`
  (a NaN equal to nothing, the two zeros equal).
- `HashMap<String, LuaMessage>` is modelled as an association list
  (`LuaTable`); the map invariant (no duplicate keys) is the predicate
  `tblNodupB`, and the Rust `HashMap` equality (same length, every entry of the
  left found equal under the `get` of the right) is the function `lmEq`.
- Panics (`panic!`, `unimplemented!`) are modelled as `Except.error` results,
  named after the error taxonomy of the spec
  (`scriptRuntimeError` / `unsupportedDecode` / `unsupportedEncode`).
- The regex `__suspended__(.+)` of `from_lua` is modelled by `findCap`:
  leftmost-match search; `.` matches any character except `'\n'`; `(.+)` is
  greedy, so the capture is the maximal newline-free run after the sentinel
  and must be nonempty.
-/

/-- Bit pattern of a Rust `f64`; the source never computes with floats, it
only stores and moves them, so the carrier is opaque payload data. -/
abbrev F64 := Nat

/-- Error taxonomy of the conversion layer (spec section 7); in the source
these are panics (`panic!` for a Lua error value, `unimplemented!` for the
catch-all decode and encode arms). -/
inductive LuaError where
  | scriptRuntimeError (msg : String)
  | unsupportedDecode
  | unsupportedEncode
  deriving DecidableEq, Repr

mutual
/-- The `LuaMessage` enum of `src/message.rs`. -/
inductive LuaMessage where
  | string (s : String)
  | integer (n : Int)
  | number (x : F64)
  | boolean (b : Bool)
  | nil
  | table (t : LuaTable)
  | threadYield (tid : String)

/-- Association-list model of `HashMap<String, LuaMessage>`. -/
inductive LuaTable where
  | nil
  | cons (k : String) (v : LuaMessage) (rest : LuaTable)
end

mutual
/-- The `rlua::Value` enum (the runtime's native value representation), with
string-keyed tables; `LightUserData`, `Function`, `Thread`, `UserData` carry
no payload relevant to the codec. -/
inductive Value where
  | nil
  | boolean (b : Bool)
  | lightUserData
  | integer (n : Int)
  | number (x : F64)
  | str (s : String)
  | table (t : VTable)
  | function
  | thread
  | userData
  | error (msg : String)

/-- String-keyed Lua table contents. -/
inductive VTable where
  | nil
  | cons (k : String) (v : Value) (rest : VTable)
end

/-- The sentinel of the suspension convention: the characters of
`__suspended__`. -/
def sentinel : List Char :=
  ['_', '_', 's', 'u', 's', 'p', 'e', 'n', 'd', 'e', 'd', '_', '_']

/-- Pattern-test at the head of a list: does `p` occur at the start of `s`. -/
def startsWith : List Char → List Char → Bool
  | [], _ => true
  | _ :: _, [] => false
  | p :: ps, c :: cs => p == c && startsWith ps cs

/-- One position of the regex search: if the sentinel occurs at the head,
the group `(.+)` greedily captures the maximal run of non-newline characters
after it, and the match succeeds only when that run is nonempty. -/
def capAt (s : List Char) : Option (List Char) :=
  if startsWith sentinel s then
    let cap := (s.drop sentinel.length).takeWhile (fun c => c != '\n')
    if cap.isEmpty then none else some cap
  else none

/-- Leftmost-match search of `Regex::new(r"__suspended__(.+)").captures`:
try each start position from the left, returning the first capture. -/
def findCap : List Char → Option (List Char)
  | [] => none
  | c :: cs =>
    match capAt (c :: cs) with
    | some cap => some cap
    | none => findCap cs

mutual
/-- `FromLua for LuaMessage::from_lua` of `src/message.rs`: decode a native
runtime value into a `LuaMessage`; a `Value::Error` panics (modelled as
`scriptRuntimeError`), the catch-all arm is `unimplemented!` (modelled as
`unsupportedDecode`). -/
def from_lua : Value → Except LuaError LuaMessage
  | .str s =>
    match findCap s.data with
    | some cap => .ok (.threadYield (String.mk cap))
    | none => .ok (.string s)
  | .integer n => .ok (.integer n)
  | .number x => .ok (.number x)
  | .boolean b => .ok (.boolean b)
  | .nil => .ok .nil
  | .table t =>
    match fromLuaTable t with
    | .ok m => .ok (.table m)
    | .error e => .error e
  | .error msg => .error (.scriptRuntimeError msg)
  | .lightUserData => .error .unsupportedDecode
  | .function => .error .unsupportedDecode
  | .thread => .error .unsupportedDecode
  | .userData => .error .unsupportedDecode

/-- `HashMap::from_lua` applied to a table value: decode the value of every entry
through `from_lua`, propagating the first failure. -/
def fromLuaTable : VTable → Except LuaError LuaTable
  | .nil => .ok .nil
  | .cons k v rest =>
    match from_lua v, fromLuaTable rest with
    | .ok m, .ok mr => .ok (.cons k m mr)
    | .error e, _ => .error e
    | .ok _, .error e => .error e
end

mutual
/-- `ToLua for LuaMessage::to_lua` of `src/message.rs`: encode a
`LuaMessage` into a native runtime value; the catch-all arm (reached only by
`ThreadYield`) is `unimplemented!`, modelled as `unsupportedEncode`. -/
def to_lua : LuaMessage → Except LuaError Value
  | .string x => .ok (.str x)
  | .integer x => .ok (.integer x)
  | .number x => .ok (.number x)
  | .boolean x => .ok (.boolean x)
  | .nil => .ok .nil
  | .table x =>
    match toLuaTable x with
    | .ok vt => .ok (.table vt)
    | .error e => .error e
  | .threadYield _ => .error .unsupportedEncode

/-- `ctx.create_table_from` applied to the map: encode the value of every entry
through `to_lua`, propagating the first failure. -/
def toLuaTable : LuaTable → Except LuaError VTable
  | .nil => .ok .nil
  | .cons k v rest =>
    match to_lua v, toLuaTable rest with
    | .ok w, .ok wr => .ok (.cons k w wr)
    | .error e, _ => .error e
    | .ok _, .error e => .error e
end

/-- Encode-then-decode composite used by the round-trip properties. -/
def roundtrip (m : LuaMessage) : Except LuaError LuaMessage :=
  match to_lua m with
  | .ok v => from_lua v
  | .error e => .error e

/-- Twos-complement reinterpretation performed by `s as i64` on a 64-bit
`usize`: values below `2^63` are kept, larger ones wrap to negatives. -/
def usizeAsI64 (n : Nat) : Int :=
  if n % 2 ^ 64 < 2 ^ 63 then ((n % 2 ^ 64 : Nat) : Int)
  else ((n % 2 ^ 64 : Nat) : Int) - 2 ^ 64

/-- `impl From<bool> for LuaMessage`. -/
def LuaMessage.from_bool (s : Bool) : LuaMessage := .boolean s

/-- `impl From<&str> for LuaMessage` (copies the text). -/
def LuaMessage.from_str (s : String) : LuaMessage := .string s

/-- `impl From<String> for LuaMessage`. -/
def LuaMessage.from_string (s : String) : LuaMessage := .string s

/-- The `lua_message_convert_int!` impls for `i8, u8, i16, u16, i32, u32,
i64`: `i64::from` is the value-preserving widening, identity on `Int`; a
width input ranges over the corresponding subrange of `Int`. -/
def LuaMessage.from_int (s : Int) : LuaMessage := .integer s

/-- `impl From<usize> for LuaMessage`: the cast `s as i64` on a 64-bit
platform. -/
def LuaMessage.from_usize (s : Nat) : LuaMessage := .integer (usizeAsI64 s)

/-- `impl From<isize> for LuaMessage`: `s as i64` is the identity on a
64-bit platform (`isize` = `i64`). -/
def LuaMessage.from_isize (s : Int) : LuaMessage := .integer s

/-- `impl From<HashMap<String, LuaMessage>> for LuaMessage`. -/
def LuaMessage.from_table (s : LuaTable) : LuaMessage := .table s

/-- The `lua_message_convert_float!` impls for `f32, f64`: `f64::from` is
the exact widening; the input is the (already widened) payload pattern. -/
def LuaMessage.from_float (s : F64) : LuaMessage := .number s

/-- `MessageResponse for LuaMessage::handle`: `if let Some(tx) = tx {
tx.send(self) }`. The result lists the messages pushed into the reply
channel, so the model exposes how many sends happen. -/
def LuaMessage.handle (self : LuaMessage) (tx : Option Unit) : List LuaMessage :=
  match tx with
  | some _ => [self]
  | none => []

deriving instance DecidableEq for LuaMessage
deriving instance DecidableEq for LuaTable
deriving instance DecidableEq for Value
deriving instance DecidableEq for VTable
deriving instance DecidableEq for Except

/-- Discriminator for the `ThreadYield` variant. -/
def LuaMessage.isThreadYield : LuaMessage → Bool
  | .threadYield _ => true
  | _ => false

/-- Lookup modelling `HashMap::get` on the association list: the value at
the first occurrence of the key. -/
def tblGet (k : String) : LuaTable → Option LuaMessage
  | .nil => none
  | .cons k2 v rest => if k = k2 then some v else tblGet k rest

/-- Length of the table, modelling `HashMap::len`. -/
def tblLen : LuaTable → Nat
  | .nil => 0
  | .cons _ _ rest => tblLen rest + 1

/-- Key list of the table. -/
def tblKeys : LuaTable → List String
  | .nil => []
  | .cons k _ rest => k :: tblKeys rest

/-- Key membership test. -/
def keyMem (k : String) : LuaTable → Bool
  | .nil => false
  | .cons k2 _ rest => if k = k2 then true else keyMem k rest

/-- The `HashMap` representation invariant: no key occurs twice. -/
def tblNodupB : LuaTable → Bool
  | .nil => true
  | .cons k _ rest => !keyMem k rest && tblNodupB rest

/-- NaN test on the `f64` bit pattern: exponent bits (62..52) all ones and
a nonzero mantissa (bits 51..0). -/
def f64IsNaN (x : F64) : Bool :=
  decide (x / 2 ^ 52 % 2 ^ 11 = 2 ^ 11 - 1) && !decide (x % 2 ^ 52 = 0)

/-- Zero test on the `f64` bit pattern: every bit below the sign bit is
zero, so both `+0.0` and `-0.0` qualify. -/
def f64IsZero (x : F64) : Bool :=
  decide (x % 2 ^ 63 = 0)

/-- IEEE-754 equality `==` on `f64` bit patterns, as the derived
`PartialEq` uses: a NaN is equal to nothing, not even itself, `+0.0` and
`-0.0` are equal, and every other value is equal exactly to its own
representation (finite values and infinities have unique bit patterns). -/
def f64Eq (a b : F64) : Bool :=
  if f64IsNaN a || f64IsNaN b then false
  else if f64IsZero a && f64IsZero b then true
  else decide (a = b)

mutual
/-- The equality of `#[derive(PartialEq)] LuaMessage`: leaf payloads compare
directly (`f64` by IEEE equality `f64Eq`), and tables compare as Rust
`HashMap`s do, by `self.len() == other.len()` together with every entry of
the left being found equal under the `get` of the right table. -/
def lmEq : LuaMessage → LuaMessage → Bool
  | .string a, .string b => decide (a = b)
  | .integer a, .integer b => decide (a = b)
  | .number a, .number b => f64Eq a b
  | .boolean a, .boolean b => decide (a = b)
  | .nil, .nil => true
  | .table a, .table b => decide (tblLen a = tblLen b) && tblLe a b
  | .threadYield a, .threadYield b => decide (a = b)
  | _, _ => false

/-- Entry-wise inclusion of the left table in the right, the `iter().all`
side of `HashMap` equality. -/
def tblLe : LuaTable → LuaTable → Bool
  | .nil, _ => true
  | .cons k v rest, t => tblFind k v t && tblLe rest t

/-- `other.get(key).map_or(false, |v| *value == *v)`: find the key in the
table and compare the values. -/
def tblFind (k : String) (v : LuaMessage) : LuaTable → Bool
  | .nil => false
  | .cons k2 v2 rest => if k = k2 then lmEq v v2 else tblFind k v rest
end
/-- `HashMap::insert` on the association list: overwrite the value at an
existing key, or append a fresh entry. -/
def tblInsert (k : String) (v : LuaMessage) : LuaTable → LuaTable
  | .nil => .cons k v .nil
  | .cons k2 v2 rest =>
    if k = k2 then .cons k2 v rest else .cons k2 v2 (tblInsert k v rest)

/-- Building a `HashMap` by inserting a list of pairs in order. -/
def fromPairs (l : List (String × LuaMessage)) : LuaTable :=
  l.foldl (fun t p => tblInsert p.1 p.2 t) .nil

mutual
/-- Well-formedness transported from Rust: every table reachable inside the
value satisfies the `HashMap` invariant of unique keys. -/
def wfm : LuaMessage → Bool
  | .table t => tblNodupB t && wfT t
  | _ => true

/-- Well-formedness of every value stored in a table. -/
def wfT : LuaTable → Bool
  | .nil => true
  | .cons _ v rest => wfm v && wfT rest
end

mutual
/-- No `Number` payload anywhere in the value is a NaN bit pattern; only
such values are equal to themselves under the derived `PartialEq`, since
IEEE equality makes a NaN unequal to every value including itself. -/
def noNaN : LuaMessage → Bool
  | .number x => !f64IsNaN x
  | .table t => noNaNT t
  | _ => true

/-- NaN-freedom of every value stored in a table. -/
def noNaNT : LuaTable → Bool
  | .nil => true
  | .cons _ v rest => noNaN v && noNaNT rest
end

mutual
/-- Values that survive the encode-decode round trip untouched: no
`ThreadYield` anywhere (encode would fail) and no string payload matched by
the suspension regex (decode would reinterpret it). -/
def clean : LuaMessage → Bool
  | .string s => (findCap s.data).isNone
  | .table t => cleanT t
  | .threadYield _ => false
  | _ => true

/-- Cleanliness of every value stored in a table. -/
def cleanT : LuaTable → Bool
  | .nil => true
  | .cons _ v rest => clean v && cleanT rest
end

/-- Spec-level description of one admissible start position of the regex
`__suspended__(.+)` inside `s`: the sentinel occurs at offset `i` and is
followed there by at least one character other than a newline. -/
def sentinelMatchAt (s : List Char) (i : Nat) : Prop :=
  ∃ c t, s.drop i = sentinel ++ c :: t ∧ c ≠ '\n'

/-- C4: encoding a `ThreadYield` into the scripting runtime always fails
with the `UnsupportedEncode` failure (the `unimplemented!` catch-all arm of
`to_lua`); it never returns a runtime value and never stringifies the
token. -/
theorem c4_encode_rejects_threadYield :
    ∀ t : String, to_lua (LuaMessage.threadYield t) = .error .unsupportedEncode :=
  fun _ => rfl

/-- C5: decoding a native error value always fails with
`ScriptRuntimeError` carrying the original message text (the `panic!` arm
of `from_lua`), and never returns a `LuaMessage`. -/
theorem c5_decode_rejects_error :
    ∀ msg : String, from_lua (Value.error msg) = .error (.scriptRuntimeError msg) :=
  fun _ => rfl

/-- C6: every fixed-width integer constructor (signed 8/16/32/64-bit,
unsigned 8/16/32-bit modelled by `from_int` over the i64 range, and
pointer-sized signed `from_isize`), and `from_usize` on inputs not
exceeding `2^63 - 1`, yields `Integer` of the same numeric value. -/
theorem c6_integer_widening_lossless :
    (∀ n : Int, -(2 ^ 63) ≤ n → n < 2 ^ 63 → LuaMessage.from_int n = .integer n) ∧
    (∀ n : Int, -(2 ^ 63) ≤ n → n < 2 ^ 63 → LuaMessage.from_isize n = .integer n) ∧
    (∀ n : Nat, n ≤ 2 ^ 63 - 1 → LuaMessage.from_usize n = .integer n) := by
  refine ⟨fun n _ _ => rfl, fun n _ _ => rfl, fun n hn => ?_⟩
  have hlt : n < 2 ^ 64 := by omega
  simp only [LuaMessage.from_usize, usizeAsI64, Nat.mod_eq_of_lt hlt]
  rw [if_pos (by omega)]

/-- Witness for C6 at concrete inputs of each kind. -/
theorem c6_integer_widening_lossless_witness :
    LuaMessage.from_int 42 = .integer 42 ∧
    LuaMessage.from_isize (-5) = .integer (-5) ∧
    LuaMessage.from_usize (2 ^ 63 - 1) = .integer ((2 ^ 63 - 1 : Nat) : Int) :=
  ⟨c6_integer_widening_lossless.1 42 (by decide) (by decide),
   c6_integer_widening_lossless.2.1 (-5) (by decide) (by decide),
   c6_integer_widening_lossless.2.2 (2 ^ 63 - 1) (by norm_num)⟩

/-- C7: no host-side constructor ever produces the `ThreadYield` variant;
every constructor is total (a Lean function), and `from_bool` maps a
boolean directly to `Boolean` with no truthiness coercion. -/
theorem c7_host_construction_never_threadYield :
    (∀ b, LuaMessage.from_bool b = .boolean b) ∧
    (∀ b, (LuaMessage.from_bool b).isThreadYield = false) ∧
    (∀ s, (LuaMessage.from_str s).isThreadYield = false) ∧
    (∀ s, (LuaMessage.from_string s).isThreadYield = false) ∧
    (∀ n, (LuaMessage.from_int n).isThreadYield = false) ∧
    (∀ n, (LuaMessage.from_usize n).isThreadYield = false) ∧
    (∀ n, (LuaMessage.from_isize n).isThreadYield = false) ∧
    (∀ t, (LuaMessage.from_table t).isThreadYield = false) ∧
    (∀ x, (LuaMessage.from_float x).isThreadYield = false) :=
  ⟨fun _ => rfl, fun _ => rfl, fun _ => rfl, fun _ => rfl, fun _ => rfl,
   fun _ => rfl, fun _ => rfl, fun _ => rfl, fun _ => rfl⟩

/-- C9: the `MessageResponse` handler sends the reply exactly once when a
reply channel is present, and performs no send (with no failure and no
retry) when the channel is absent. -/
theorem c9_reply_one_shot :
    (∀ m : LuaMessage, m.handle (some ()) = [m]) ∧
    (∀ m : LuaMessage, m.handle none = []) :=
  ⟨fun _ => rfl, fun _ => rfl⟩

/-- C10: the pointer-sized casts are twos-complement reinterpretation:
`from_usize` keeps values up to `2^63 - 1` and wraps larger 64-bit values
to `n - 2^64`; `from_isize` preserves every value. -/
theorem c10_ptr_casts_wrap :
    (∀ n : Nat, n ≤ 2 ^ 63 - 1 → LuaMessage.from_usize n = .integer n) ∧
    (∀ n : Nat, n < 2 ^ 64 → 2 ^ 63 - 1 < n →
      LuaMessage.from_usize n = .integer ((n : Int) - 2 ^ 64)) ∧
    (∀ n : Int, LuaMessage.from_isize n = .integer n) := by
  refine ⟨?_, fun n hlt hgt => ?_, fun n => rfl⟩
  · intro n hn
    have hlt : n < 2 ^ 64 := by omega
    simp only [LuaMessage.from_usize, usizeAsI64, Nat.mod_eq_of_lt hlt]
    rw [if_pos (by omega)]
  · simp only [LuaMessage.from_usize, usizeAsI64, Nat.mod_eq_of_lt hlt]
    rw [if_neg (by omega)]

/-- Witness for C10 at the wrap boundary. -/
theorem c10_ptr_casts_wrap_witness :
    LuaMessage.from_usize (2 ^ 63 - 1) = .integer ((2 ^ 63 - 1 : Nat) : Int) ∧
    LuaMessage.from_usize (2 ^ 63) = .integer (((2 ^ 63 : Nat) : Int) - 2 ^ 64) ∧
    LuaMessage.from_isize (-7) = .integer (-7) :=
  ⟨c10_ptr_casts_wrap.1 (2 ^ 63 - 1) (by norm_num),
   c10_ptr_casts_wrap.2.1 (2 ^ 63) (by norm_num) (by norm_num),
   c10_ptr_casts_wrap.2.2 (-7)⟩

/-- Sentinel-detection sanity checks from the testable properties of the
spec: a matched sentinel yields the suffix as token, an unmatched text and
the bare sentinel decode as plain strings. -/
theorem sentinel_detection_cases :
    from_lua (Value.str "__suspended__abc123")
      = .ok (LuaMessage.threadYield "abc123") ∧
    from_lua (Value.str "__suspendedXabc")
      = .ok (LuaMessage.string "__suspendedXabc") ∧
    from_lua (Value.str "__suspended__")
      = .ok (LuaMessage.string "__suspended__") := by decide

theorem startsWith_iff (p : List Char) : ∀ s, startsWith p s = true ↔ ∃ r, s = p ++ r := by
  induction p with
  | nil => intro s; simp [startsWith]
  | cons a ps ih =>
    intro s
    cases s with
    | nil =>
      simp only [startsWith, List.cons_append]
      constructor
      · intro h; cases h
      · rintro ⟨r, h⟩; cases h
    | cons c cs =>
      simp only [startsWith, Bool.and_eq_true, beq_iff_eq, ih, List.cons_append]
      constructor
      · rintro ⟨rfl, r, rfl⟩; exact ⟨r, rfl⟩
      · rintro ⟨r, heq⟩
        injection heq with h1 h2
        exact ⟨h1.symm, r, h2⟩

theorem takeWhile_ne_nil_iff (r : List Char) :
    r.takeWhile (fun c => c != '\n') ≠ [] ↔ ∃ c t, r = c :: t ∧ c ≠ '\n' := by
  cases r with
  | nil => simp
  | cons c t =>
    by_cases hc : c = '\n'
    · subst hc
      simp [List.takeWhile]
    · simp only [List.takeWhile_cons]
      rw [if_pos (by simpa using hc)]
      simp only [ne_eq, List.cons.injEq, reduceCtorEq, not_false_eq_true, true_iff]
      exact ⟨c, t, ⟨rfl, rfl⟩, hc⟩

theorem capAt_eq_some_iff (s cap : List Char) :
    capAt s = some cap ↔
      ∃ r, s = sentinel ++ r ∧
        cap = r.takeWhile (fun c => c != '\n') ∧ cap ≠ [] := by
  unfold capAt
  by_cases h : startsWith sentinel s = true
  · rw [if_pos h]
    obtain ⟨r, rfl⟩ := (startsWith_iff sentinel s).mp h
    rw [List.drop_left]
    by_cases he : (r.takeWhile (fun c => c != '\n')).isEmpty = true
    · rw [if_pos he]
      rw [List.isEmpty_iff] at he
      simp only [reduceCtorEq, false_iff, not_exists]
      rintro r' ⟨heq, hcap, hne⟩
      obtain rfl := List.append_cancel_left heq
      exact hne (hcap.trans he)
    · rw [if_neg he]
      rw [Bool.not_eq_true, List.isEmpty_eq_false] at he
      constructor
      · rintro h'
        injection h' with h'
        exact ⟨r, rfl, h'.symm, h' ▸ he⟩
      · rintro ⟨r', heq, hcap, hne⟩
        obtain rfl := List.append_cancel_left heq
        exact congrArg some hcap.symm
  · rw [if_neg h]
    simp only [reduceCtorEq, false_iff, not_exists]
    rintro r ⟨rfl, -, -⟩
    exact h ((startsWith_iff sentinel _).mpr ⟨r, rfl⟩)

theorem sentinelMatchAt_iff (s : List Char) (i : Nat) :
    sentinelMatchAt s i ↔
      ∃ r, s.drop i = sentinel ++ r ∧
        r.takeWhile (fun c => c != '\n') ≠ [] := by
  constructor
  · rintro ⟨c, t, heq, hc⟩
    exact ⟨c :: t, heq, (takeWhile_ne_nil_iff _).mpr ⟨c, t, rfl, hc⟩⟩
  · rintro ⟨r, heq, hne⟩
    obtain ⟨c, t, rfl, hc⟩ := (takeWhile_ne_nil_iff r).mp hne
    exact ⟨c, t, heq, hc⟩

theorem capAt_drop_eq_some_iff (s : List Char) (i : Nat) (cap : List Char) :
    capAt (s.drop i) = some cap ↔
      sentinelMatchAt s i ∧
        cap = ((s.drop i).drop sentinel.length).takeWhile (fun c => c != '\n') := by
  rw [capAt_eq_some_iff, sentinelMatchAt_iff]
  constructor
  · rintro ⟨r, heq, hcap, hne⟩
    exact ⟨⟨r, heq, hcap ▸ hne⟩, by rw [heq, List.drop_left, hcap]⟩
  · rintro ⟨⟨r, heq, hne⟩, hcap⟩
    refine ⟨r, heq, ?_, ?_⟩
    · rw [hcap, heq, List.drop_left]
    · rw [hcap, heq, List.drop_left]; exact hne

theorem capAt_drop_eq_none_iff (s : List Char) (i : Nat) :
    capAt (s.drop i) = none ↔ ¬ sentinelMatchAt s i := by
  constructor
  · intro h hm
    have := (capAt_drop_eq_some_iff s i
      (((s.drop i).drop sentinel.length).takeWhile (fun c => c != '\n'))).mpr ⟨hm, rfl⟩
    rw [h] at this
    cases this
  · intro hm
    cases hc : capAt (s.drop i) with
    | none => rfl
    | some cap =>
      exact absurd ((capAt_drop_eq_some_iff s i cap).mp hc).1 hm

theorem findCap_eq_some_iff (s cap : List Char) :
    findCap s = some cap ↔
      ∃ i, capAt (s.drop i) = some cap ∧ ∀ j, j < i → capAt (s.drop j) = none := by
  induction s with
  | nil =>
    simp only [findCap, reduceCtorEq, false_iff, not_exists]
    rintro i ⟨h, -⟩
    rw [List.drop_nil] at h
    rw [show capAt [] = none from rfl] at h
    cases h
  | cons c cs ih =>
    rw [findCap]
    cases hc : capAt (c :: cs) with
    | some cap0 =>
      constructor
      · rintro h
        injection h with h
        exact ⟨0, by simpa [hc] using congrArg some h, by omega⟩
      · rintro ⟨i, hi, hmin⟩
        cases i with
        | zero => rw [List.drop_zero] at hi; rw [hc] at hi; exact hi
        | succ i =>
          have := hmin 0 (by omega)
          rw [List.drop_zero, hc] at this
          cases this
    | none =>
      rw [ih]
      constructor
      · rintro ⟨i, hi, hmin⟩
        refine ⟨i + 1, by simpa [List.drop_succ_cons] using hi, ?_⟩
        intro j hj
        cases j with
        | zero => simpa using hc
        | succ j =>
          rw [List.drop_succ_cons]
          exact hmin j (by omega)
      · rintro ⟨i, hi, hmin⟩
        cases i with
        | zero =>
          rw [List.drop_zero, hc] at hi
          cases hi
        | succ i =>
          rw [List.drop_succ_cons] at hi
          refine ⟨i, hi, fun j hj => ?_⟩
          have := hmin (j + 1) (by omega)
          rwa [List.drop_succ_cons] at this

theorem findCap_eq_none_iff (s : List Char) :
    findCap s = none ↔ ∀ i, capAt (s.drop i) = none := by
  induction s with
  | nil =>
    simp only [findCap, true_iff]
    intro i
    rw [List.drop_nil]
    rfl
  | cons c cs ih =>
    rw [findCap]
    cases hc : capAt (c :: cs) with
    | some cap0 =>
      simp only [reduceCtorEq, false_iff, not_forall]
      refine ⟨0, ?_⟩
      rw [List.drop_zero, hc]
      simp
    | none =>
      rw [ih]
      constructor
      · intro h i
        cases i with
        | zero => rw [List.drop_zero]; exact hc
        | succ i => rw [List.drop_succ_cons]; exact h i
      · intro h i
        have := h (i + 1)
        rwa [List.drop_succ_cons] at this

theorem from_lua_str (s : String) :
    from_lua (Value.str s) =
      match findCap s.data with
      | some cap => .ok (.threadYield (String.mk cap))
      | none => .ok (.string s) := rfl

/-- C1 (amended): decoding a native string `s` produces `ThreadYield(tid)`
exactly when the regex `__suspended__(.+)` matches somewhere in `s` — the
sentinel may be preceded by other characters, since the pattern is not
anchored — and the token `tid` is the maximal run of non-newline characters
after the leftmost admissible occurrence (the group `.+` stops at a newline
and must be nonempty); in every other case, including the bare sentinel and
a sentinel followed only by a newline, decoding produces `String(s)`
unchanged. -/
theorem c1_sentinel_decode_characterization (s : String) :
    (∀ tid : String,
      (from_lua (Value.str s) = .ok (.threadYield tid) ↔
        ∃ i, sentinelMatchAt s.data i ∧
          (∀ j, j < i → ¬ sentinelMatchAt s.data j) ∧
          tid.data =
            ((s.data.drop i).drop sentinel.length).takeWhile (fun c => c != '\n'))) ∧
    (from_lua (Value.str s) = .ok (.string s) ↔
      ∀ i, ¬ sentinelMatchAt s.data i) := by
  constructor
  · intro tid
    rw [from_lua_str]
    cases hf : findCap s.data with
    | none =>
      simp only [Except.ok.injEq, reduceCtorEq, false_iff, not_exists]
      rintro i ⟨hm, -, -⟩
      have := (findCap_eq_none_iff s.data).mp hf i
      exact (capAt_drop_eq_none_iff s.data i).mp this hm
    | some cap =>
      obtain ⟨i, hi, hmin⟩ := (findCap_eq_some_iff s.data cap).mp hf
      obtain ⟨hm, hcap⟩ := (capAt_drop_eq_some_iff s.data i cap).mp hi
      constructor
      · intro h
        injection h with h
        injection h with h
        refine ⟨i, hm, fun j hj => ?_, ?_⟩
        · exact (capAt_drop_eq_none_iff s.data j).mp (hmin j hj)
        · rw [← h, ← hcap]
      · rintro ⟨i', hm', hmin', htid⟩
        have hii' : i = i' := by
          rcases Nat.lt_trichotomy i i' with hlt | heq | hgt
          · exact absurd hm (hmin' i hlt)
          · exact heq
          · exact absurd hm' ((capAt_drop_eq_none_iff s.data i').mp (hmin i' hgt))
        subst hii'
        have : tid.data = cap := by rw [htid, hcap]
        cases tid with
        | mk d => cases this; rfl
  · rw [from_lua_str]
    cases hf : findCap s.data with
    | none =>
      simp only [Except.ok.injEq, true_iff]
      intro i
      exact (capAt_drop_eq_none_iff s.data i).mp ((findCap_eq_none_iff s.data).mp hf i)
    | some cap =>
      simp only [Except.ok.injEq, reduceCtorEq, false_iff, not_forall, not_not]
      obtain ⟨i, hi, -⟩ := (findCap_eq_some_iff s.data cap).mp hf
      exact ⟨i, ((capAt_drop_eq_some_iff s.data i cap).mp hi).1⟩

/-- C1 counterexample to the claim as stated: the regex is not anchored, so
a string whose sentinel occurrence is preceded by other characters is still
reinterpreted (first two conjuncts refute the claimed `String(s)` case),
and the captured token stops at a newline instead of being the entire
suffix (last two conjuncts refute the claimed `ThreadYield` token case). -/
theorem c1_counterexample :
    from_lua (Value.str "a__suspended__b") = .ok (.threadYield "b") ∧
    decide (from_lua (Value.str "a__suspended__b")
      = .ok (LuaMessage.string "a__suspended__b")) = false ∧
    from_lua (Value.str "__suspended__ab\ncd") = .ok (.threadYield "ab") ∧
    decide (from_lua (Value.str "__suspended__ab\ncd")
      = .ok (LuaMessage.threadYield "ab\ncd")) = false := by decide

/-- Witness for C1 at the concrete unanchored-match input. -/
theorem c1_sentinel_decode_characterization_witness :
    from_lua (Value.str "a__suspended__b") = .ok (.threadYield "b") := by
  refine ((c1_sentinel_decode_characterization "a__suspended__b").1 "b").mpr
    ⟨1, ((capAt_drop_eq_some_iff "a__suspended__b".data 1 ['b']).mp (by decide)).1,
     ?_, by decide⟩
  intro j hj
  interval_cases j
  exact (capAt_drop_eq_none_iff "a__suspended__b".data 0).mp (by decide)

mutual
/-- Round-trip identity on clean values: encode then decode returns the
value unchanged whenever it contains no `ThreadYield` and no
sentinel-matching string. -/
theorem rt_clean : ∀ v : LuaMessage, clean v = true → roundtrip v = .ok v
  | .string s, h => by
    have hf : findCap s.data = none := by
      simpa only [clean, Option.isNone_iff_eq_none] using h
    simp only [roundtrip, to_lua, from_lua, hf]
  | .integer n, _ => rfl
  | .number x, _ => rfl
  | .boolean b, _ => rfl
  | .nil, _ => rfl
  | .table t, h => by
    obtain ⟨vt, henc, hdec⟩ := rtT_clean t (by simpa only [clean] using h)
    simp only [roundtrip, to_lua, henc, from_lua, hdec]
  | .threadYield tid, h => by simp only [clean] at h; cases h

/-- Table side of the clean round trip: encoding succeeds and decoding the
result restores the original entries. -/
theorem rtT_clean : ∀ t : LuaTable, cleanT t = true →
    ∃ vt, toLuaTable t = .ok vt ∧ fromLuaTable vt = .ok t
  | .nil, _ => ⟨.nil, rfl, rfl⟩
  | .cons k v rest, h => by
    rw [cleanT, Bool.and_eq_true] at h
    have hrt := rt_clean v h.1
    obtain ⟨vtr, hencr, hdecr⟩ := rtT_clean rest h.2
    cases hw : to_lua v with
    | error e => simp only [roundtrip, hw] at hrt; cases hrt
    | ok w =>
      simp only [roundtrip, hw] at hrt
      exact ⟨.cons k w vtr, by simp only [toLuaTable, hw, hencr],
             by simp only [fromLuaTable, hrt, hdecr]⟩
end

/-- C2 (amended): encode-then-decode is the identity on `Integer`,
`Number`, `Boolean` and `Nil` values, and on `String` values whose text the
suspension regex does not match; a matching string is instead reinterpreted
as `ThreadYield` (see the counterexample). -/
theorem c2_roundtrip_non_table :
    (∀ n, roundtrip (.integer n) = .ok (.integer n)) ∧
    (∀ x, roundtrip (.number x) = .ok (.number x)) ∧
    (∀ b, roundtrip (.boolean b) = .ok (.boolean b)) ∧
    roundtrip .nil = .ok .nil ∧
    (∀ s : String, (∀ i, ¬ sentinelMatchAt s.data i) →
      roundtrip (.string s) = .ok (.string s)) := by
  refine ⟨fun n => rfl, fun x => rfl, fun b => rfl, rfl, fun s hs => ?_⟩
  have hf : findCap s.data = none :=
    (findCap_eq_none_iff s.data).mpr
      fun i => (capAt_drop_eq_none_iff s.data i).mpr (hs i)
  simp only [roundtrip, to_lua, from_lua, hf]

/-- Witness for C2 on a plain string and a concrete integer. -/
theorem c2_roundtrip_non_table_witness :
    roundtrip (.string "hello") = .ok (.string "hello") ∧
    roundtrip (.integer 42) = .ok (.integer 42) :=
  ⟨c2_roundtrip_non_table.2.2.2.2 "hello"
    (fun i => (capAt_drop_eq_none_iff "hello".data i).mp
      ((findCap_eq_none_iff "hello".data).mp (by decide) i)),
   c2_roundtrip_non_table.1 42⟩

/-- C2 counterexample to the claim as stated: a `String` value whose text
matches the sentinel pattern does not round-trip to the same variant. -/
theorem c2_counterexample :
    roundtrip (.string "__suspended__x") = .ok (.threadYield "x") ∧
    decide (roundtrip (.string "__suspended__x")
      = .ok (LuaMessage.string "__suspended__x")) = false := by decide

/-- C3 (amended): encode-then-decode is the identity on every table whose
entries recursively contain no `ThreadYield` and no sentinel-matching
string, at arbitrary nesting depth; the excluded entries break the round
trip (see the counterexample). -/
theorem c3_table_roundtrip (t : LuaTable) (h : cleanT t = true) :
    roundtrip (.table t) = .ok (.table t) :=
  rt_clean (.table t) h

/-- Witness for C3 on a one-entry table. -/
theorem c3_table_roundtrip_witness :
    roundtrip (.table (.cons "bar" (.string "abc") .nil))
      = .ok (.table (.cons "bar" (.string "abc") .nil)) :=
  c3_table_roundtrip (.cons "bar" (.string "abc") .nil) (by decide)

/-- C3 counterexample to the claim as stated: a table entry whose string
value matches the sentinel decodes to `ThreadYield` instead of the original
string, and a table containing a `ThreadYield` does not encode at all. -/
theorem c3_counterexample :
    roundtrip (.table (.cons "k" (.string "__suspended__x") .nil))
      = .ok (.table (.cons "k" (.threadYield "x") .nil)) ∧
    decide (roundtrip (.table (.cons "k" (.string "__suspended__x") .nil))
      = .ok (LuaMessage.table (.cons "k" (.string "__suspended__x") .nil))) = false ∧
    roundtrip (.table (.cons "k" (.threadYield "x") .nil))
      = .error .unsupportedEncode := by decide

theorem keyMem_eq_isSome (k : String) : ∀ t, keyMem k t = (tblGet k t).isSome
  | .nil => rfl
  | .cons k2 v rest => by
    simp only [keyMem, tblGet]
    by_cases hk : k = k2
    · rw [if_pos hk, if_pos hk]; rfl
    · rw [if_neg hk, if_neg hk]; exact keyMem_eq_isSome k rest

theorem keyMem_iff_mem (k : String) : ∀ t, keyMem k t = true ↔ k ∈ tblKeys t
  | .nil => by simp [keyMem, tblKeys]
  | .cons k2 v rest => by
    simp only [keyMem, tblKeys, List.mem_cons]
    by_cases hk : k = k2
    · rw [if_pos hk]; simp [hk]
    · rw [if_neg hk, keyMem_iff_mem k rest]; simp [hk]

theorem tblLen_eq_keys : ∀ t, tblLen t = (tblKeys t).length
  | .nil => rfl
  | .cons k v rest => by
    simp only [tblLen, tblKeys, List.length_cons, tblLen_eq_keys rest]

theorem tblNodupB_iff : ∀ t, tblNodupB t = true ↔ (tblKeys t).Nodup
  | .nil => by simp [tblNodupB, tblKeys]
  | .cons k v rest => by
    simp only [tblNodupB, tblKeys, Bool.and_eq_true, Bool.not_eq_true',
      List.nodup_cons, tblNodupB_iff rest]
    constructor
    · rintro ⟨h1, h2⟩
      refine ⟨fun hmem => ?_, h2⟩
      rw [← keyMem_iff_mem] at hmem
      rw [h1] at hmem
      cases hmem
    · rintro ⟨h1, h2⟩
      refine ⟨?_, h2⟩
      cases hkm : keyMem k rest with
      | false => rfl
      | true => exact absurd ((keyMem_iff_mem k rest).mp hkm) h1

theorem tblFind_iff (k : String) (v : LuaMessage) :
    ∀ t, tblFind k v t = true ↔ ∃ w, tblGet k t = some w ∧ lmEq v w = true
  | .nil => by simp [tblFind, tblGet]
  | .cons k2 v2 rest => by
    by_cases hk : k = k2
    · subst hk
      simp [tblFind, tblGet]
    · simp only [tblFind, tblGet, if_neg hk]
      exact tblFind_iff k v rest

theorem tblLe_get : ∀ a, ∀ b : LuaTable, tblLe a b = true →
    ∀ k v, tblGet k a = some v → tblFind k v b = true
  | .nil, _, _, k, v, h => by simp [tblGet] at h
  | .cons k0 v0 rest, b, hle, k, v, h => by
    simp only [tblLe, Bool.and_eq_true] at hle
    simp only [tblGet] at h
    by_cases hk : k = k0
    · subst hk
      rw [if_pos rfl] at h
      injection h with h
      subst h
      exact hle.1
    · rw [if_neg hk] at h
      exact tblLe_get rest b hle.2 k v h

theorem tblLe_of_get : ∀ a, ∀ b : LuaTable, tblNodupB a = true →
    (∀ k v, tblGet k a = some v → tblFind k v b = true) → tblLe a b = true
  | .nil, b, _, _ => by simp [tblLe]
  | .cons k0 v0 rest, b, hnd, hget => by
    rw [tblNodupB, Bool.and_eq_true, Bool.not_eq_true'] at hnd
    simp only [tblLe, Bool.and_eq_true]
    refine ⟨hget k0 v0 (by simp [tblGet]), tblLe_of_get rest b hnd.2 ?_⟩
    intro k v h
    have hk : k ≠ k0 := by
      rintro rfl
      have hks := keyMem_eq_isSome k rest
      rw [hnd.1, h] at hks
      cases hks
    refine hget k v ?_
    simp only [tblGet, if_neg hk]
    exact h

theorem lmEq_table_iff (a b : LuaTable)
    (ha : tblNodupB a = true) (hb : tblNodupB b = true) :
    lmEq (.table a) (.table b) = true ↔
      ((∀ k, keyMem k a = keyMem k b) ∧
       (∀ k v w, tblGet k a = some v → tblGet k b = some w →
         lmEq v w = true)) := by
  simp only [lmEq, Bool.and_eq_true, decide_eq_true_eq]
  constructor
  · rintro ⟨hlen, hle⟩
    have hsub : ∀ k, keyMem k a = true → keyMem k b = true := by
      intro k hk
      rw [keyMem_eq_isSome] at hk
      cases hv : tblGet k a with
      | none => rw [hv] at hk; cases hk
      | some v =>
        obtain ⟨w, hw, -⟩ := (tblFind_iff k v b).mp (tblLe_get a b hle k v hv)
        rw [keyMem_eq_isSome, hw]
        rfl
    have hsubl : tblKeys a ⊆ tblKeys b := by
      intro k hk
      exact (keyMem_iff_mem k b).mp (hsub k ((keyMem_iff_mem k a).mpr hk))
    have hperm : List.Perm (tblKeys a) (tblKeys b) :=
      (List.subperm_of_subset ((tblNodupB_iff a).mp ha) hsubl).perm_of_length_le
        (by rw [← tblLen_eq_keys, ← tblLen_eq_keys, hlen])
    constructor
    · intro k
      cases hma : keyMem k a with
      | true =>
        have hmb : keyMem k b = true :=
          (keyMem_iff_mem k b).mpr (hperm.mem_iff.mp ((keyMem_iff_mem k a).mp hma))
        rw [hmb]
      | false =>
        cases hmb : keyMem k b with
        | false => rfl
        | true =>
          have : keyMem k a = true :=
            (keyMem_iff_mem k a).mpr (hperm.mem_iff.mpr ((keyMem_iff_mem k b).mp hmb))
          rw [hma] at this
          cases this
    · intro k v w hva hwb
      obtain ⟨w', hw', heq⟩ := (tblFind_iff k v b).mp (tblLe_get a b hle k v hva)
      rw [hwb] at hw'
      injection hw' with hw'
      subst hw'
      exact heq
  · rintro ⟨hkeys, hvals⟩
    have hmemiff : ∀ k, k ∈ tblKeys a ↔ k ∈ tblKeys b := by
      intro k
      rw [← keyMem_iff_mem, ← keyMem_iff_mem, hkeys k]
    have hperm : List.Perm (tblKeys a) (tblKeys b) :=
      (List.perm_ext_iff_of_nodup ((tblNodupB_iff a).mp ha)
        ((tblNodupB_iff b).mp hb)).mpr hmemiff
    constructor
    · rw [tblLen_eq_keys, tblLen_eq_keys]
      exact hperm.length_eq
    · refine tblLe_of_get a b ha ?_
      intro k v hva
      have hkm : keyMem k b = true := by
        rw [← hkeys k, keyMem_eq_isSome, hva]
        rfl
      cases hwb : tblGet k b with
      | none => rw [keyMem_eq_isSome, hwb] at hkm; cases hkm
      | some w =>
        exact (tblFind_iff k v b).mpr ⟨w, hwb, hvals k v w hva hwb⟩

theorem tblGet_insert_self (k : String) (v : LuaMessage) :
    ∀ t, tblGet k (tblInsert k v t) = some v
  | .nil => by simp [tblInsert, tblGet]
  | .cons k2 v2 rest => by
    by_cases hk : k = k2
    · simp only [tblInsert, if_pos hk, tblGet, if_pos hk]
    · simp only [tblInsert, if_neg hk, tblGet, if_neg hk]
      exact tblGet_insert_self k v rest

theorem tblGet_insert_ne (k k' : String) (v : LuaMessage) (hk : k ≠ k') :
    ∀ t, tblGet k (tblInsert k' v t) = tblGet k t
  | .nil => by simp [tblInsert, tblGet, if_neg hk]
  | .cons k2 v2 rest => by
    by_cases h2 : k' = k2
    · subst h2
      simp only [tblInsert, if_pos rfl, tblGet, if_neg hk]
    · simp only [tblInsert, if_neg h2, tblGet]
      by_cases h3 : k = k2
      · rw [if_pos h3, if_pos h3]
      · rw [if_neg h3, if_neg h3]
        exact tblGet_insert_ne k k' v hk rest

theorem keyMem_insert (k' k : String) (v : LuaMessage) :
    ∀ t, keyMem k' (tblInsert k v t) = (decide (k' = k) || keyMem k' t)
  | .nil => by
    simp only [tblInsert, keyMem]
    by_cases hk : k' = k
    · rw [if_pos hk, decide_eq_true hk]; rfl
    · rw [if_neg hk, decide_eq_false hk]; rfl
  | .cons k2 v2 rest => by
    by_cases h2 : k = k2
    · subst h2
      simp only [tblInsert, if_pos rfl, keyMem]
      by_cases hk : k' = k
      · rw [if_pos hk, decide_eq_true hk, Bool.true_or]
      · rw [if_neg hk, decide_eq_false hk, Bool.false_or]
    · simp only [tblInsert, if_neg h2, keyMem]
      by_cases h3 : k' = k2
      · rw [if_pos h3, if_pos h3, Bool.or_true]
      · rw [if_neg h3, if_neg h3]
        exact keyMem_insert k' k v rest

theorem tblNodupB_insert (k : String) (v : LuaMessage) :
    ∀ t, tblNodupB t = true → tblNodupB (tblInsert k v t) = true
  | .nil, _ => by simp [tblInsert, tblNodupB, keyMem]
  | .cons k2 v2 rest, hnd => by
    rw [tblNodupB, Bool.and_eq_true, Bool.not_eq_true'] at hnd
    by_cases hk : k = k2
    · simp only [tblInsert, if_pos hk, tblNodupB, Bool.and_eq_true, Bool.not_eq_true']
      exact hnd
    · simp only [tblInsert, if_neg hk, tblNodupB, Bool.and_eq_true, Bool.not_eq_true']
      refine ⟨?_, tblNodupB_insert k v rest hnd.2⟩
      rw [keyMem_insert, hnd.1, Bool.or_false]
      exact decide_eq_false fun h => hk h.symm

theorem tblNodupB_foldl :
    ∀ (l : List (String × LuaMessage)) (t : LuaTable), tblNodupB t = true →
      tblNodupB (l.foldl (fun t p => tblInsert p.1 p.2 t) t) = true
  | [], _, h => h
  | p :: rest, t, h =>
    tblNodupB_foldl rest _ (tblNodupB_insert p.1 p.2 t h)

theorem fromPairs_nodup (l : List (String × LuaMessage)) :
    tblNodupB (fromPairs l) = true :=
  tblNodupB_foldl l .nil rfl

theorem tblGet_foldl_not_mem (k : String) :
    ∀ (l : List (String × LuaMessage)) (t : LuaTable),
      k ∉ l.map Prod.fst →
      tblGet k (l.foldl (fun t p => tblInsert p.1 p.2 t) t) = tblGet k t
  | [], _, _ => rfl
  | (k0, v0) :: rest, t, h => by
    rw [List.map_cons, List.mem_cons] at h
    push_neg at h
    rw [List.foldl_cons]
    rw [tblGet_foldl_not_mem k rest _ h.2]
    exact tblGet_insert_ne k k0 v0 h.1 t

theorem tblGet_foldl_mem (k : String) (v : LuaMessage) :
    ∀ (l : List (String × LuaMessage)) (t : LuaTable),
      (l.map Prod.fst).Nodup → (k, v) ∈ l →
      tblGet k (l.foldl (fun t p => tblInsert p.1 p.2 t) t) = some v
  | [], _, _, hm => by cases hm
  | (k0, v0) :: rest, t, hnd, hm => by
    rw [List.map_cons, List.nodup_cons] at hnd
    rw [List.foldl_cons]
    rcases List.mem_cons.mp hm with heq | hm'
    · cases heq
      rw [tblGet_foldl_not_mem k rest _ hnd.1]
      exact tblGet_insert_self k v t
    · exact tblGet_foldl_mem k v rest _ hnd.2 hm'

theorem tblGet_fromPairs_some_iff (k : String) (v : LuaMessage)
    (l : List (String × LuaMessage)) (hnd : (l.map Prod.fst).Nodup) :
    tblGet k (fromPairs l) = some v ↔ (k, v) ∈ l := by
  constructor
  · intro h
    by_cases hk : k ∈ l.map Prod.fst
    · obtain ⟨p, hp, hpk⟩ := List.mem_map.mp hk
      obtain ⟨k', v'⟩ := p
      subst hpk
      rw [fromPairs, tblGet_foldl_mem _ v' l _ hnd hp] at h
      injection h with h
      subst h
      exact hp
    · rw [fromPairs, tblGet_foldl_not_mem k l _ hk] at h
      cases h
  · intro hm
    rw [fromPairs]
    exact tblGet_foldl_mem k v l _ hnd hm

theorem tblGet_fromPairs_perm (l1 l2 : List (String × LuaMessage))
    (hperm : l1.Perm l2) (hnd : (l1.map Prod.fst).Nodup) (k : String) :
    tblGet k (fromPairs l1) = tblGet k (fromPairs l2) := by
  have hnd2 : (l2.map Prod.fst).Nodup := (hperm.map Prod.fst).nodup_iff.mp hnd
  by_cases hk : k ∈ l1.map Prod.fst
  · obtain ⟨p, hp, hpk⟩ := List.mem_map.mp hk
    obtain ⟨k', v⟩ := p
    cases hpk
    rw [(tblGet_fromPairs_some_iff k' v l1 hnd).mpr hp,
      (tblGet_fromPairs_some_iff k' v l2 hnd2).mpr (hperm.subset hp)]
  · have hk2 : k ∉ l2.map Prod.fst := fun h => hk ((hperm.map Prod.fst).mem_iff.mpr h)
    rw [fromPairs, fromPairs, tblGet_foldl_not_mem k l1 _ hk,
      tblGet_foldl_not_mem k l2 _ hk2]

theorem f64Eq_refl (x : F64) (h : f64IsNaN x = false) : f64Eq x x = true := by
  unfold f64Eq
  rw [h]
  simp

mutual
/-- Reflexivity of the modelled Rust equality on well-formed values with no
NaN payload (a NaN is unequal to itself under the derived `PartialEq`, see
`c8_counterexample`; every constructible Rust value is well-formed, since
`HashMap` keys are unique). -/
theorem lmEq_refl : ∀ v, wfm v = true → noNaN v = true → lmEq v v = true
  | .string s, _, _ => by simp [lmEq]
  | .integer n, _, _ => by simp [lmEq]
  | .number x, _, hn => by
    simp only [noNaN, Bool.not_eq_true'] at hn
    simp only [lmEq]
    exact f64Eq_refl x hn
  | .boolean b, _, _ => by simp [lmEq]
  | .nil, _, _ => by simp [lmEq]
  | .threadYield t, _, _ => by simp [lmEq]
  | .table t, h, hn => by
    rw [wfm, Bool.and_eq_true] at h
    simp only [noNaN] at hn
    simp only [lmEq, Bool.and_eq_true, decide_eq_true_eq]
    refine ⟨by simp, tblLe_of_get t t h.1 ?_⟩
    intro k v hget
    exact (tblFind_iff k v t).mpr ⟨v, hget, tblValues_refl t h.2 hn k v hget⟩

/-- Every value stored in a well-formed NaN-free table is equal to
itself. -/
theorem tblValues_refl : ∀ t, wfT t = true → noNaNT t = true →
    ∀ k v, tblGet k t = some v → lmEq v v = true
  | .nil, _, _, k, v, h => by simp [tblGet] at h
  | .cons k0 v0 rest, hw, hn, k, v, h => by
    rw [wfT, Bool.and_eq_true] at hw
    rw [noNaNT, Bool.and_eq_true] at hn
    simp only [tblGet] at h
    by_cases hk : k = k0
    · rw [if_pos hk] at h
      injection h with h
      subst h
      exact lmEq_refl v0 hw.1 hn.1
    · rw [if_neg hk] at h
      exact tblValues_refl rest hw.2 hn.2 k v h
end

theorem fromPairs_perm_lmEq (l1 l2 : List (String × LuaMessage))
    (hperm : l1.Perm l2) (hnd : (l1.map Prod.fst).Nodup)
    (hwf : ∀ p ∈ l1, wfm p.2 = true)
    (hnn : ∀ p ∈ l1, noNaN p.2 = true) :
    lmEq (.table (fromPairs l1)) (.table (fromPairs l2)) = true := by
  refine (lmEq_table_iff (fromPairs l1) (fromPairs l2)
    (fromPairs_nodup l1) (fromPairs_nodup l2)).mpr ⟨?_, ?_⟩
  · intro k
    rw [keyMem_eq_isSome, keyMem_eq_isSome,
      tblGet_fromPairs_perm l1 l2 hperm hnd k]
  · intro k v w hv hw
    have hvw : v = w := by
      rw [tblGet_fromPairs_perm l1 l2 hperm hnd k, hw] at hv
      injection hv with h
      exact h.symm
    subst hvw
    have hmem : (k, v) ∈ l1 := (tblGet_fromPairs_some_iff k v l1 hnd).mp hv
    exact lmEq_refl v (hwf (k, v) hmem) (hnn (k, v) hmem)

/-- C8 counterexample to the claim as stated: the derived `PartialEq`
compares `f64` with IEEE equality, under which a NaN (here the bit pattern
with all exponent and mantissa bits set, `2 ^ 63 - 1`) is unequal to
itself, so two tables built from the identical key/value pair list
`[("k", Number(NaN))]` compare unequal — the claimed equality fails even
with the insertion order unchanged. -/
theorem c8_counterexample :
    lmEq (.table (fromPairs [("k", .number (2 ^ 63 - 1))]))
      (.table (fromPairs [("k", .number (2 ^ 63 - 1))])) = false := by
  have hT : fromPairs [("k", LuaMessage.number (2 ^ 63 - 1))]
      = .cons "k" (.number (2 ^ 63 - 1)) .nil := by decide
  have hnan : f64IsNaN 9223372036854775807 = true := by decide
  rw [hT]
  simp [lmEq, tblLe, tblFind, f64Eq, hnan]

/-- C8 (amended): equality of `Table` values (the derived Rust `PartialEq`,
whose `HashMap` comparison `lmEq` models) is structural up to the IEEE
treatment of NaN. First, tables built by inserting identical key/value
pairs in different orders compare equal provided no stored value contains a
NaN `Number` payload (a NaN is unequal even to itself, see the
counterexample; well-formedness of the stored values is the `HashMap`
invariant every Rust value satisfies). Second, for tables satisfying the
unique-key invariant, two tables are equal exactly when they have the same
key set and pairwise-equal values; key order carries no meaning. -/
theorem c8_table_equality_structural :
    (∀ (l1 l2 : List (String × LuaMessage)), l1.Perm l2 →
      (l1.map Prod.fst).Nodup → (∀ p ∈ l1, wfm p.2 = true) →
      (∀ p ∈ l1, noNaN p.2 = true) →
      lmEq (.table (fromPairs l1)) (.table (fromPairs l2)) = true) ∧
    (∀ a b : LuaTable, tblNodupB a = true → tblNodupB b = true →
      (lmEq (.table a) (.table b) = true ↔
        ((∀ k, keyMem k a = keyMem k b) ∧
         (∀ k v w, tblGet k a = some v → tblGet k b = some w →
           lmEq v w = true)))) :=
  ⟨fromPairs_perm_lmEq, lmEq_table_iff⟩

/-- Witness for C8: a two-entry map inserted in both orders compares equal,
and the equality transfers the key set. -/
theorem c8_table_equality_structural_witness :
    lmEq (.table (fromPairs [("a", .integer 1), ("b", .boolean true)]))
      (.table (fromPairs [("b", .boolean true), ("a", .integer 1)])) = true ∧
    keyMem "a" (fromPairs [("a", .integer 1), ("b", .boolean true)])
      = keyMem "a" (fromPairs [("b", .boolean true), ("a", .integer 1)]) := by
  have h1 := c8_table_equality_structural.1
    [("a", LuaMessage.integer 1), ("b", LuaMessage.boolean true)]
    [("b", LuaMessage.boolean true), ("a", LuaMessage.integer 1)]
    (by decide) (by decide) (by decide) (by decide)
  exact ⟨h1,
    ((c8_table_equality_structural.2 _ _ (by decide) (by decide)).mp h1).1 "a"⟩
